import Mathlib

/-!
Shallow embedding of the link-graph pathfinding and caching engine of
wiki.py: the page filter, the multi-tier link cache, the path validator,
the direct-connection shortcut, the heuristic bounded BFS and the
orchestrator, together with theorems about them.

String processing is embedded over explicit character lists, matching the
Python string operations on the ASCII fragment the engine manipulates.
External collaborators (the raw page source, the durable store transport,
the wall clock) are modelled as a fixed environment of oracles, so that a
whole run is a deterministic function of the environment and the starting
cache state, which is how the code behaves in one session with no
intervening invalidation.
-/

/-- ASCII lower-casing of one character, as Python str.lower acts on ASCII. -/
def pyLowerChar (c : Char) : Char :=
  if 'A' ≤ c ∧ c ≤ 'Z' then Char.ofNat (c.toNat + 32) else c

/-- Lower-case a string character-wise (the ASCII fragment of str.lower). -/
def pyLower (s : String) : String := String.mk (s.data.map pyLowerChar)

/-- Substring occurrence test over character lists. -/
def infixCheck (pat : List Char) : List Char → Bool
  | [] => pat.isEmpty
  | c :: rest => pat.isPrefixOf (c :: rest) || infixCheck pat rest

/-- Python membership test on strings: pat occurs inside s. -/
def strContains (s pat : String) : Bool := infixCheck pat.data s.data

/-- Python startswith on strings. -/
def strStarts (s pat : String) : Bool := pat.data.isPrefixOf s.data

/-- The fixed blacklist of administrative markers from is_regular_page. -/
def meta_blacklist : List String := [
  "disambiguation", "stub", "wikidata", "use dmy dates", "use mdy dates",
  "articles with", "short description", "identifier", "automatic", "cs1",
  "wikipedia", "category:", "file:", "template:", "help:", "user:",
  "talk:", "portal:", "book:", "draft:", "all articles", "pages with",
  "coordinates on wikidata", "webarchive template", "citation"]

/-- PageFilter: embedding of is_regular_page from wiki.py. -/
def is_regular_page (page_name : String) : Bool :=
  if page_name = "" then false
  else
    let lower := pyLower page_name
    if meta_blacklist.any (fun term => strContains lower term) then false
    else if strStarts lower "list of" || strStarts lower "index of" then false
    else if 150 < page_name.length then false
    else true

/-- A resolved page as the external raw source hands it back. -/
structure WikiPage where
  title : String
  links : List String
  categories : List String
  deriving DecidableEq

/-- The environment of external oracles: page resolution, the possible
failure points of lazy attribute fetches and of the durable store, and the
wall clock indexed by how many times it has been read. -/
structure Env where
  getPage : String → Option WikiPage
  linksCatsFail : String → Bool
  linksFail : String → Bool
  catsFail : String → Bool
  dbReadFail : String → Bool
  dbWriteFail : String → Bool
  time : Nat → Nat

/-- The mutable cache state: the hot in-process map and the durable keyed
store, both as insertion-ordered association lists. -/
structure Cache where
  memory : List (String × List String)
  db : List (String × List String)
  deriving DecidableEq

/-- The empty cache of a fresh process over an empty store. -/
def cache0 : Cache := ⟨[], []⟩

/-- First-match association-list lookup (dict and keyed-table lookup). -/
def lookupA : List (String × List String) → String → Option (List String)
  | [], _ => none
  | (k, v) :: rest, t => if k = t then some v else lookupA rest t

/-- Raw combined link and category list, with the fallback chain of wiki.py
for lazy attribute fetch failures. -/
def rawOf (env : Env) (t : String) (pg : WikiPage) : List String :=
  if env.linksCatsFail t then (if env.linksFail t then [] else pg.links)
  else pg.links ++ pg.categories

/-- The filter step applied to a fetched or deserialized link list. -/
def filterLinks (t : String) (links : List String) : List String :=
  links.filter (fun l => !(l == "") && is_regular_page l && !(l == t))

/-- Plain hot-tier assignment (the early-return branches of the code). -/
def memSet (c : Cache) (t : String) (v : List String) : Cache :=
  { c with memory := c.memory ++ [(t, v)] }

/-- Hot-tier assignment with the size-triggered flush dropping the oldest
half of the entries once the map exceeds 1000 entries. -/
def memFlushSet (c : Cache) (t : String) (v : List String) : Cache :=
  let m := if 1000 < c.memory.length then c.memory.drop 500 else c.memory
  { c with memory := m ++ [(t, v)] }

/-- Durable-tier write, INSERT OR REPLACE semantics under first-match lookup. -/
def dbSet (c : Cache) (t : String) (raw : List String) : Cache :=
  { c with db := (t, raw) :: c.db }

/-- Shared tail of the db-hit and api-fetch branches: filter, then store the
filtered list in the hot tier. -/
def finishFetch (c : Cache) (t : String) (raw : List String) : List String × Cache :=
  (filterLinks t raw, memFlushSet c t (filterLinks t raw))

/-- LinkCache: embedding of get_page_links_with_cache from wiki.py. -/
def get_page_links_with_cache (env : Env) (c : Cache) (t : String) :
    List String × Cache :=
  if t = "" then ([], c)
  else
    match lookupA c.memory t with
    | some v => (v, c)
    | none =>
      if env.dbReadFail t then ([], memSet c t [])
      else
        match lookupA c.db t with
        | some raw => finishFetch c t raw
        | none =>
          match env.getPage t with
          | none => ([], memSet c t [])
          | some pg =>
            let raw := rawOf env t pg
            finishFetch (if env.dbWriteFail t then c else dbSet c t raw) t raw

/-- The value a fresh hot-tier-miss computation yields for a topic, purely in
terms of the environment and the durable tier. -/
def freshValue (env : Env) (db : List (String × List String)) (t : String) :
    List String :=
  if t = "" then []
  else if env.dbReadFail t then []
  else
    match lookupA db t with
    | some raw => filterLinks t raw
    | none =>
      match env.getPage t with
      | none => []
      | some pg => filterLinks t (rawOf env t pg)

/-- Hot-tier coherence: every hot-tier entry agrees with a fresh computation
from the durable tier and the environment. -/
def Coherent (env : Env) (c : Cache) : Prop :=
  ∀ p ∈ c.memory, p.2 = freshValue env c.db p.1

/-- State evolution that keeps the denotation of every topic unchanged. -/
def Evolves (env : Env) (c c' : Cache) : Prop :=
  ∀ u, freshValue env c'.db u = freshValue env c.db u

/-- PathValidator: embedding of verify_path_exists from wiki.py, checking
each consecutive pair through the cache, threading the cache state. -/
def verify_path_exists (env : Env) : Cache → List String → Bool × Cache
  | c, [] => (true, c)
  | c, [_] => (true, c)
  | c, a :: b :: rest =>
    let r := get_page_links_with_cache env c a
    if b ∈ r.1 then verify_path_exists env r.2 (b :: rest) else (false, r.2)

/-- Nodes of a small concrete link graph used to evaluate theorems. -/
def pageA : WikiPage := ⟨"A", ["B"], []⟩

/-- Node B of the concrete graph. -/
def pageB : WikiPage := ⟨"B", ["C"], []⟩

/-- Node C of the concrete graph. -/
def pageC : WikiPage := ⟨"C", [], []⟩

/-- Node Z of the concrete graph, not connected towards C. -/
def pageZ : WikiPage := ⟨"Z", ["Q"], []⟩

/-- A small failure-free concrete environment over the four-node graph. -/
def testEnv : Env where
  getPage := fun t =>
    if t = "A" then some pageA
    else if t = "B" then some pageB
    else if t = "C" then some pageC
    else if t = "Z" then some pageZ
    else none
  linksCatsFail := fun _ => false
  linksFail := fun _ => false
  catsFail := fun _ => false
  dbReadFail := fun _ => false
  dbWriteFail := fun _ => false
  time := fun k => k

/-- An environment whose raw source hands back a link list containing the
topic itself and an administrative entry, to observe what the durable tier
stores. -/
def testEnvMeta : Env where
  getPage := fun t =>
    if t = "T" then some ⟨"T", ["Category:Stuff", "T", "Real Article"], []⟩
    else none
  linksCatsFail := fun _ => false
  linksFail := fun _ => false
  catsFail := fun _ => false
  dbReadFail := fun _ => false
  dbWriteFail := fun _ => false
  time := fun k => k

/-- Python str.split with no argument: split on whitespace runs, dropping
empty pieces, accumulating the current word reversed. -/
def pySplitAux : List Char → List Char → List String
  | [], acc => if acc = [] then [] else [String.mk acc.reverse]
  | c :: rest, acc =>
    if c.isWhitespace then
      if acc = [] then pySplitAux rest []
      else String.mk acc.reverse :: pySplitAux rest []
    else pySplitAux rest (c :: acc)

/-- Python str.split with no argument on a string. -/
def pySplit (s : String) : List String := pySplitAux s.data []

/-- Replace underscores by spaces (str.replace with a one-character pattern). -/
def underscoreToSpace (s : String) : String :=
  String.mk (s.data.map (fun c => if c = '_' then ' ' else c))

/-- The token words of a title: lower-cased, underscores to spaces, split. -/
def tokenWords (s : String) : List String :=
  pySplit (underscoreToSpace (pyLower s))

/-- Count of distinct words shared with the target word set (the size of the
set intersection in the code). -/
def overlapCount (ws targetWs : List String) : Nat :=
  (ws.dedup.filter (fun w => decide (w ∈ targetWs))).length

/-- The heuristic relevance score of a neighbor title against the target
words: distinct-word overlap plus a bonus of one for titles whose plain
whitespace split has at most 4 words. -/
def relevance_score (endWords : List String) (n : String) : Nat :=
  overlapCount (tokenWords n) endWords + (if (pySplit n).length ≤ 4 then 1 else 0)

/-- Sort order of scored neighbors, the Python sort key of the code: higher
score first, shorter title first on equal scores. -/
def scoredRel (a b : String × Nat) : Prop :=
  b.2 < a.2 ∨ (a.2 = b.2 ∧ a.1.length ≤ b.1.length)

instance : DecidableRel scoredRel := fun a b => by
  unfold scoredRel
  infer_instance

instance : IsTotal (String × Nat) scoredRel where
  total a b := by unfold scoredRel; omega

instance : IsTrans (String × Nat) scoredRel where
  trans a b c hab hbc := by
    unfold scoredRel at hab hbc ⊢
    omega

/-- One neighbor scan of the BFS expansion: the end-title check with its
validated early return, and accumulation of scored candidates for unvisited
short titles. -/
def scanNeighbors (env : Env) (endTitle : String) (path : List String)
    (visited : List String) (endWords : List String) :
    Cache → List String → List (String × Nat) →
      Option (List String) × Cache × List (String × Nat)
  | c, [], acc => (none, c, acc)
  | c, n :: ns, acc =>
    let step := fun (c : Cache) =>
      let acc' := if n ∉ visited ∧ n.length < 100
        then acc ++ [(n, relevance_score endWords n)] else acc
      scanNeighbors env endTitle path visited endWords c ns acc'
    if n = endTitle then
      match verify_path_exists env c (path ++ [n]) with
      | (true, c') => (some (path ++ [n]), c', acc)
      | (false, c') => step c'
    else step c

/-- Enqueue loop over the kept candidates: skip names already visited, mark
visited at enqueue time, and build the appended frontier items in order. -/
def enqueueTop (path : List String) : List String → List String →
    List String × List (String × List String)
  | visited, [] => (visited, [])
  | visited, n :: ns =>
    if n ∈ visited then enqueueTop path visited ns
    else
      let r := enqueueTop path (n :: visited) ns
      (r.1, (n, path ++ [n]) :: r.2)

/-- The top-10 candidate names after sorting by the heuristic key.
insertionSort is a stable sort, so over the total preorder of the key it
computes exactly the result of the stable Python sort. -/
def topCandidates (scored : List (String × Nat)) : List String :=
  ((List.insertionSort scoredRel scored).take 10).map (fun x => x.1)

/-- Add one dequeued node to the count of a BFS loop result. -/
def addDeq (r : Option (List String) × Cache × Nat × Nat) :
    Option (List String) × Cache × Nat × Nat :=
  (r.1, r.2.1, r.2.2.1, r.2.2.2 + 1)

/-- The bounded BFS loop of find_path_bfs. The fuel is the remaining node
budget out of 5000 (the loop guard nodes_processed < max_nodes); each
iteration reads the clock once, dequeues, skips nodes at the depth bound,
otherwise fetches the references, scans them, sorts, prunes to the top 10
and enqueues. The result carries the found path, the cache, the next clock
index, and how many nodes this loop dequeued. -/
def bfsLoop (env : Env) (startTime timeout : Nat) (endTitle : String)
    (maxDepth : Nat) :
    Nat → Cache → Nat → List (String × List String) → List String →
      Option (List String) × Cache × Nat × Nat
  | 0, c, k, _, _ => (none, c, k, 0)
  | _ + 1, c, k, [], _ => (none, c, k, 0)
  | fuel + 1, c, k, (cur, path) :: rest, visited =>
    if env.time k - startTime > timeout then (none, c, k + 1, 0)
    else if maxDepth ≤ path.length then
      addDeq (bfsLoop env startTime timeout endTitle maxDepth fuel c (k + 1)
        rest visited)
    else
      let r := get_page_links_with_cache env c cur
      match scanNeighbors env endTitle path visited (tokenWords endTitle)
          r.2 r.1 [] with
      | (some fp, c2, _) => (some fp, c2, k + 1, 1)
      | (none, c2, scored) =>
        let vq := enqueueTop path visited (topCandidates scored)
        addDeq (bfsLoop env startTime timeout endTitle maxDepth fuel c2 (k + 1)
          (rest ++ vq.2) vq.1)

/-- Try up to three common neighbors, returning the first validated two-hop
path. -/
def tryNeighbors (env : Env) (startT endT : String) :
    Cache → List String → Option (List String) × Cache
  | c, [] => (none, c)
  | c, n :: ns =>
    match verify_path_exists env c [startT, n, endT] with
    | (true, c') => (some [startT, n, endT], c')
    | (false, c') => tryNeighbors env startT endT c' ns

/-- DirectConnectionFinder: embedding of find_direct_connection. -/
def find_direct_connection (env : Env) (c : Cache) (startT endT : String) :
    Option (List String) × Cache :=
  if startT = endT then (some [startT], c)
  else
    let r1 := get_page_links_with_cache env c startT
    if endT ∈ r1.1 then (some [startT, endT], r1.2)
    else
      let r2 := get_page_links_with_cache env r1.2 endT
      tryNeighbors env startT endT r2.2
        ((r1.1.filter (fun l => decide (l ∈ r2.1))).take 3)

/-- HeuristicBoundedSearch: embedding of find_path_bfs. The result carries
the found path, the cache, the next clock index and the dequeued-node count
of the BFS loop. -/
def find_path_bfs (env : Env) (c : Cache) (k : Nat) (startT endT : String)
    (maxDepth timeout : Nat) : Option (List String) × Cache × Nat × Nat :=
  let startTime := env.time k
  match find_direct_connection env c startT endT with
  | (some p, c1) => (some p, c1, k + 1, 0)
  | (none, c1) =>
    bfsLoop env startTime timeout endT maxDepth 5000 c1 (k + 1)
      [(startT, [startT])] [startT]

/-- Try up to three common categories, returning the first validated
three-node path. -/
def tryCats (env : Env) (startT endT : String) :
    Cache → List String → List String × Cache
  | c, [] => ([], c)
  | c, cat :: cats =>
    match verify_path_exists env c [startT, cat, endT] with
    | (true, c') => ([startT, cat, endT], c')
    | (false, c') => tryCats env startT endT c' cats

/-- The category-overlap fallback of find_short_path. The iteration order of
the Python set intersection is modelled as the first list's order. -/
def categoryFallback (env : Env) (c : Cache) (startT endT : String) :
    List String × Cache :=
  match env.getPage startT, env.getPage endT with
  | some spo, some epo =>
    if env.catsFail startT || env.catsFail endT then ([], c)
    else
      tryCats env startT endT c
        ((((spo.categories.filter is_regular_page).take 10).filter
          (fun x => decide (x ∈ (epo.categories.filter is_regular_page).take 10))).take 3)
  | _, _ => ([], c)

/-- SearchOrchestrator: embedding of find_short_path, over resolved page
objects (none models an unresolvable endpoint). -/
def find_short_path (env : Env) (c : Cache) (k : Nat)
    (startPage endPage : Option WikiPage) (timeout : Nat) :
    List String × Cache × Nat :=
  match startPage, endPage with
  | some sp, some ep =>
    if sp.title = "" ∨ ep.title = "" then ([], c, k)
    else
      match find_path_bfs env c k sp.title ep.title 6 timeout with
      | (some p, c1, k1, _) =>
        if p = [] then
          let f := categoryFallback env c1 sp.title ep.title
          (f.1, f.2, k1)
        else
          match verify_path_exists env c1 p with
          | (true, c2) => (p, c2, k1)
          | (false, c2) =>
            let f := categoryFallback env c2 sp.title ep.title
            (f.1, f.2, k1)
      | (none, c1, k1, _) =>
        let f := categoryFallback env c1 sp.title ep.title
        (f.1, f.2, k1)
  | _, _ => ([], c, k)

/-- The scored unvisited short-title candidates of one node expansion, as
accumulated by the neighbor scan. -/
def candidateScores (endWords : List String) (visited : List String)
    (neighbors : List String) : List (String × Nat) :=
  (neighbors.filter (fun n => decide (n ∉ visited ∧ n.length < 100))).map
    (fun n => (n, relevance_score endWords n))

/-- The titles enqueued from one node expansion. -/
def enqueuedNames (endTitle : String) (path : List String)
    (visited : List String) (neighbors : List String) : List String :=
  (enqueueTop path visited
      (topCandidates (candidateScores (tokenWords endTitle) visited neighbors))).2.map
    (fun q => q.1)

/-- Reference-list invariant for hot-tier entries: no self reference, no
empty name, no entry rejected by the page filter. -/
def MemClean (c : Cache) : Prop :=
  ∀ p ∈ c.memory, p.1 ∉ p.2 ∧ ∀ x ∈ p.2, x ≠ "" ∧ is_regular_page x = true

/-! ### Theorems -/

theorem lookupA_mem {l : List (String × List String)} {t : String} {v : List String}
    (h : lookupA l t = some v) : (t, v) ∈ l := by
  induction l with
  | nil => simp [lookupA] at h
  | cons p rest ih =>
    obtain ⟨k, w⟩ := p
    by_cases hk : k = t
    · subst hk
      have hw : w = v := by simpa [lookupA] using h
      subst hw
      exact List.mem_cons_self _ _
    · simp only [lookupA, if_neg hk] at h
      exact List.mem_cons_of_mem _ (ih h)

theorem lookupA_none_not_mem {l : List (String × List String)} {t : String}
    (h : lookupA l t = none) : ∀ v, (t, v) ∉ l := by
  induction l with
  | nil => simp
  | cons p rest ih =>
    obtain ⟨k, w⟩ := p
    by_cases hk : k = t
    · simp [lookupA, hk] at h
    · simp only [lookupA, if_neg hk] at h
      intro v hv
      rcases List.mem_cons.mp hv with heq | hmem
      · exact hk (congrArg Prod.fst heq).symm
      · exact ih h v hmem

theorem lookupA_append_right {l₁ l₂ : List (String × List String)} {t : String}
    (h : lookupA l₁ t = none) : lookupA (l₁ ++ l₂) t = lookupA l₂ t := by
  induction l₁ with
  | nil => simp
  | cons p rest ih =>
    obtain ⟨k, w⟩ := p
    by_cases hk : k = t
    · simp [lookupA, hk] at h
    · simp only [lookupA, if_neg hk] at h ⊢
      exact ih h

theorem lookupA_drop_none {l : List (String × List String)} {t : String} {n : Nat}
    (h : lookupA l t = none) : lookupA (l.drop n) t = none := by
  by_contra hne
  cases hd : lookupA (l.drop n) t with
  | none => exact hne hd
  | some v =>
    exact lookupA_none_not_mem h v (List.mem_of_mem_drop (lookupA_mem hd))

theorem lookupA_memSet {c : Cache} {t : String} {v : List String}
    (h : lookupA c.memory t = none) : lookupA (memSet c t v).memory t = some v := by
  unfold memSet
  simp only
  rw [lookupA_append_right h]
  simp [lookupA]

theorem lookupA_memFlushSet {c : Cache} {t : String} {v : List String}
    (h : lookupA c.memory t = none) :
    lookupA (memFlushSet c t v).memory t = some v := by
  unfold memFlushSet
  by_cases hlen : 1000 < c.memory.length
  · simp only [hlen, if_true]
    rw [lookupA_append_right (lookupA_drop_none h)]
    simp [lookupA]
  · simp only [hlen, if_false]
    rw [lookupA_append_right h]
    simp [lookupA]


theorem memSet_db (c : Cache) (t : String) (v : List String) :
    (memSet c t v).db = c.db := rfl

theorem memFlushSet_db (c : Cache) (t : String) (v : List String) :
    (memFlushSet c t v).db = c.db := rfl

theorem dbSet_db (c : Cache) (t : String) (raw : List String) :
    (dbSet c t raw).db = (t, raw) :: c.db := rfl

theorem dbSet_memory (c : Cache) (t : String) (raw : List String) :
    (dbSet c t raw).memory = c.memory := rfl

theorem coherent_cache0 (env : Env) : Coherent env cache0 := by
  intro p hp
  simp [cache0] at hp

theorem evolves_trans {env : Env} {c₁ c₂ c₃ : Cache}
    (h₁ : Evolves env c₁ c₂) (h₂ : Evolves env c₂ c₃) : Evolves env c₁ c₃ :=
  fun u => (h₂ u).trans (h₁ u)

theorem mem_memSet {c : Cache} {t : String} {v : List String} {p : String × List String}
    (h : p ∈ (memSet c t v).memory) : p ∈ c.memory ∨ p = (t, v) := by
  simp [memSet] at h
  exact h

theorem mem_memFlushSet {c : Cache} {t : String} {v : List String}
    {p : String × List String} (h : p ∈ (memFlushSet c t v).memory) :
    p ∈ c.memory ∨ p = (t, v) := by
  by_cases hlen : 1000 < c.memory.length
  · simp [memFlushSet, hlen] at h
    rcases h with h | h
    · exact Or.inl (List.mem_of_mem_drop h)
    · exact Or.inr (by simp [h])
  · simp [memFlushSet, hlen] at h
    exact h

theorem freshValue_dbSet (env : Env) {c : Cache} {t : String} {pg : WikiPage}
    (ht : ¬ t = "") (hrf : ¬ env.dbReadFail t)
    (hdb : lookupA c.db t = none) (hpg : env.getPage t = some pg) :
    ∀ u, freshValue env (dbSet c t (rawOf env t pg)).db u = freshValue env c.db u := by
  intro u
  by_cases hu : u = t
  · subst hu
    simp [freshValue, dbSet, lookupA, ht, hrf, hdb, hpg]
  · have hlk : lookupA (dbSet c t (rawOf env t pg)).db u = lookupA c.db u := by
      have : ¬ t = u := fun h => hu h.symm
      simp [dbSet, lookupA, this]
    simp [freshValue, hlk]

theorem getLinks_fst (env : Env) {c : Cache} (hc : Coherent env c) (t : String) :
    (get_page_links_with_cache env c t).1 = freshValue env c.db t := by
  by_cases ht : t = ""
  · simp [get_page_links_with_cache, freshValue, ht]
  · cases hmem : lookupA c.memory t with
    | some v =>
      have hv := hc (t, v) (lookupA_mem hmem)
      simp only [get_page_links_with_cache, ht, if_false, hmem]
      exact hv
    | none =>
      by_cases hrf : env.dbReadFail t
      · simp [get_page_links_with_cache, freshValue, ht, hmem, hrf]
      · cases hdb : lookupA c.db t with
        | some raw =>
          simp [get_page_links_with_cache, freshValue, finishFetch, ht, hmem, hrf, hdb]
        | none =>
          cases hpg : env.getPage t with
          | none =>
            simp [get_page_links_with_cache, freshValue, ht, hmem, hrf, hdb, hpg]
          | some pg =>
            simp [get_page_links_with_cache, freshValue, finishFetch, ht, hmem, hrf,
              hdb, hpg]

theorem getLinks_state (env : Env) {c : Cache} (hc : Coherent env c) (t : String) :
    Coherent env (get_page_links_with_cache env c t).2 ∧
    Evolves env c (get_page_links_with_cache env c t).2 := by
  by_cases ht : t = ""
  · simp only [get_page_links_with_cache, ht, if_true]
    exact ⟨hc, fun u => rfl⟩
  · cases hmem : lookupA c.memory t with
    | some v =>
      simp only [get_page_links_with_cache, ht, if_false, hmem]
      exact ⟨hc, fun u => rfl⟩
    | none =>
      by_cases hrf : env.dbReadFail t
      · have h1 : (get_page_links_with_cache env c t).2 = memSet c t [] := by
          simp [get_page_links_with_cache, ht, hmem, hrf]
        rw [h1]
        refine ⟨?_, fun u => rfl⟩
        intro p hp
        rcases mem_memSet hp with hp | hp
        · exact hc p hp
        · subst hp
          simp [freshValue, ht, hrf]
      · cases hdb : lookupA c.db t with
        | some raw =>
          have h1 : (get_page_links_with_cache env c t).2
              = memFlushSet c t (filterLinks t raw) := by
            simp [get_page_links_with_cache, finishFetch, ht, hmem, hrf, hdb]
          rw [h1]
          refine ⟨?_, fun u => rfl⟩
          intro p hp
          rw [memFlushSet_db]
          rcases mem_memFlushSet hp with hp | hp
          · exact hc p hp
          · subst hp
            simp [freshValue, ht, hrf, hdb]
        | none =>
          cases hpg : env.getPage t with
          | none =>
            have h1 : (get_page_links_with_cache env c t).2 = memSet c t [] := by
              simp [get_page_links_with_cache, ht, hmem, hrf, hdb, hpg]
            rw [h1]
            refine ⟨?_, fun u => rfl⟩
            intro p hp
            rw [memSet_db]
            rcases mem_memSet hp with hp | hp
            · exact hc p hp
            · subst hp
              simp [freshValue, ht, hrf, hdb, hpg]
          | some pg =>
            by_cases hw : env.dbWriteFail t
            · have h1 : (get_page_links_with_cache env c t).2
                  = memFlushSet c t (filterLinks t (rawOf env t pg)) := by
                simp [get_page_links_with_cache, finishFetch, ht, hmem, hrf, hdb, hpg, hw]
              rw [h1]
              refine ⟨?_, fun u => rfl⟩
              intro p hp
              rw [memFlushSet_db]
              rcases mem_memFlushSet hp with hp | hp
              · exact hc p hp
              · subst hp
                simp [freshValue, ht, hrf, hdb, hpg]
            · have h1 : (get_page_links_with_cache env c t).2
                  = memFlushSet (dbSet c t (rawOf env t pg)) t
                      (filterLinks t (rawOf env t pg)) := by
                simp [get_page_links_with_cache, finishFetch, ht, hmem, hrf, hdb, hpg, hw]
              rw [h1]
              have hev : ∀ u, freshValue env (dbSet c t (rawOf env t pg)).db u
                  = freshValue env c.db u := freshValue_dbSet env ht hrf hdb hpg
              constructor
              · intro p hp
                rw [memFlushSet_db]
                rcases mem_memFlushSet hp with hp | hp
                · rw [hev p.1]
                  exact hc p (by simpa [dbSet] using hp)
                · subst hp
                  simp [freshValue, dbSet, lookupA, ht, hrf]
              · intro u
                rw [memFlushSet_db]
                exact hev u

theorem verify_state (env : Env) :
    ∀ (p : List String) {c : Cache}, Coherent env c →
      Coherent env (verify_path_exists env c p).2 ∧
      Evolves env c (verify_path_exists env c p).2 := by
  intro p
  induction p with
  | nil => intro c hc; exact ⟨hc, fun u => rfl⟩
  | cons a p' ih =>
    intro c hc
    cases p' with
    | nil => exact ⟨hc, fun u => rfl⟩
    | cons b rest =>
      have hg := getLinks_state env hc a
      by_cases hb : b ∈ (get_page_links_with_cache env c a).1
      · simp only [verify_path_exists, hb, if_true]
        have hrec := ih hg.1
        exact ⟨hrec.1, evolves_trans hg.2 hrec.2⟩
      · simp only [verify_path_exists, hb, if_false]
        exact hg

theorem chain_congr {R S : String → String → Prop} (h : ∀ a b, R a b ↔ S a b)
    {p : List String} : List.Chain' R p ↔ List.Chain' S p := by
  constructor
  · exact fun hch => List.Chain'.imp (fun a b hab => (h a b).mp hab) hch
  · exact fun hch => List.Chain'.imp (fun a b hab => (h a b).mpr hab) hch

theorem verify_iff (env : Env) :
    ∀ (p : List String) {c : Cache}, Coherent env c →
      ((verify_path_exists env c p).1 = true ↔
        List.Chain' (fun a b => b ∈ freshValue env c.db a) p) := by
  intro p
  induction p with
  | nil => intro c hc; simp [verify_path_exists]
  | cons a p' ih =>
    intro c hc
    cases p' with
    | nil => simp [verify_path_exists]
    | cons b rest =>
      have hfst := getLinks_fst env hc a
      have hg := getLinks_state env hc a
      by_cases hb : b ∈ (get_page_links_with_cache env c a).1
      · simp only [verify_path_exists, hb, if_true]
        have hrec := ih hg.1
        have hcg : List.Chain' (fun x y => y ∈ freshValue env
              (get_page_links_with_cache env c a).2.db x) (b :: rest) ↔
            List.Chain' (fun x y => y ∈ freshValue env c.db x) (b :: rest) :=
          chain_congr (fun x y => by rw [hg.2 x])
        rw [hrec, hcg, List.chain'_cons]
        have hab : b ∈ freshValue env c.db a := by rw [← hfst]; exact hb
        simp [hab]
      · simp only [verify_path_exists, hb, if_false]
        rw [List.chain'_cons]
        have hab : ¬ b ∈ freshValue env c.db a := by rw [← hfst]; exact hb
        simp [hab]

/-- C2: the validator accepts every path of length at most one; for longer
paths it accepts exactly when every consecutive pair is an edge of the cached
link graph; and a durable-store fetch error at any step of the path makes it
reject (fail closed, the errored topic denotes an empty reference list). -/
theorem C2_validator_spec (env : Env) (c : Cache) (p : List String)
    (hc : Coherent env c) :
    (p.length ≤ 1 → (verify_path_exists env c p).1 = true) ∧
    ((verify_path_exists env c p).1 = true ↔
      List.Chain' (fun a b => b ∈ freshValue env c.db a) p) ∧
    (∀ i : Nat, ∀ h2 : i + 1 < p.length,
      env.dbReadFail (p.get ⟨i, by omega⟩) = true →
      (verify_path_exists env c p).1 = false) := by
  refine ⟨?_, verify_iff env p hc, ?_⟩
  · intro hlen
    match p with
    | [] => simp [verify_path_exists]
    | [x] => simp [verify_path_exists]
    | a :: b :: rest => simp at hlen
  · intro i h2 herr
    cases hres : (verify_path_exists env c p).1 with
    | false => rfl
    | true =>
      have hch := (verify_iff env p hc).mp hres
      have hrel := List.chain'_iff_get.mp hch i (by omega)
      have hempty : ∀ t : String, env.dbReadFail t = true →
          freshValue env c.db t = [] := by
        intro t htt
        unfold freshValue
        by_cases hnil : t = ""
        · simp [hnil]
        · simp [hnil, htt]
      rw [hempty _ herr] at hrel
      exact absurd hrel (List.not_mem_nil _)

/-- C2 witness: on a concrete coherent state the validator accepts a
single-node path, accepts a real edge, and rejects under a fetch error. -/
theorem C2_validator_spec_witness :
    Coherent testEnv cache0 ∧
    (verify_path_exists testEnv cache0 ["A"]).1 = true :=
  ⟨coherent_cache0 testEnv,
   (C2_validator_spec testEnv cache0 ["A"] (coherent_cache0 testEnv)).1 (by decide)⟩

theorem infixCheck_of_isPrefixOf {pat l : List Char} (h : pat.isPrefixOf l = true) :
    infixCheck pat l = true := by
  cases l with
  | nil =>
    cases pat with
    | nil => rfl
    | cons c cs => simp [List.isPrefixOf] at h
  | cons c rest => simp [infixCheck, h]

/-- C3: the page filter rejects empty names, overlong names, list and index
pages, and any name containing a blacklisted marker after lower-casing (in
particular names starting with a category marker or containing a
disambiguation marker), and accepts an ordinary title. It is a pure function
of its string argument by construction. -/
theorem C3_page_filter_spec :
    (∀ s : String, s = "" → is_regular_page s = false) ∧
    (∀ s : String, 150 < s.length → is_regular_page s = false) ∧
    (∀ s : String, strStarts (pyLower s) "list of" = true ∨
        strStarts (pyLower s) "index of" = true → is_regular_page s = false) ∧
    (∀ s m : String, m ∈ meta_blacklist → strContains (pyLower s) m = true →
        is_regular_page s = false) ∧
    (∀ s : String, strStarts (pyLower s) "category:" = true →
        is_regular_page s = false) ∧
    (∀ s : String, strContains (pyLower s) "disambiguation" = true →
        is_regular_page s = false) ∧
    is_regular_page "Albert Einstein" = true := by
  have hmarker : ∀ s m : String, m ∈ meta_blacklist →
      strContains (pyLower s) m = true → is_regular_page s = false := by
    intro s m hm hc
    unfold is_regular_page
    by_cases hs : s = ""
    · simp [hs]
    · have hany : meta_blacklist.any (fun term => strContains (pyLower s) term) = true := by
        exact List.any_eq_true.mpr ⟨m, hm, hc⟩
      simp [hs, hany]
  refine ⟨?_, ?_, ?_, ?_, ?_, ?_, ?_⟩
  · intro s hs; simp [is_regular_page, hs]
  · intro s hlen
    unfold is_regular_page
    by_cases hs : s = ""
    · simp [hs]
    · simp only [hs, if_false]
      by_cases hany : meta_blacklist.any (fun term => strContains (pyLower s) term) = true
      · simp [hany]
      · simp only [hany]
        by_cases hlist : (strStarts (pyLower s) "list of" || strStarts (pyLower s) "index of") = true
        · simp [hlist]
        · simp [hlist, hlen]
  · intro s hstart
    unfold is_regular_page
    by_cases hs : s = ""
    · simp [hs]
    · have hlist : (strStarts (pyLower s) "list of" || strStarts (pyLower s) "index of") = true := by
        rcases hstart with h | h <;> simp [h]
      by_cases hany : meta_blacklist.any (fun term => strContains (pyLower s) term) = true
      · simp [hs, hany]
      · simp [hs, hany, hlist]
  · exact hmarker
  · intro s hpre
    apply hmarker s "category:"
    · simp [meta_blacklist]
    · exact infixCheck_of_isPrefixOf hpre
  · intro s hc
    apply hmarker s "disambiguation"
    · simp [meta_blacklist]
    · exact hc
  · decide

/-- C3 witness: concrete evaluations obtained from the theorem. -/
theorem C3_page_filter_spec_witness :
    is_regular_page "" = false ∧
    is_regular_page "List of sovereign states" = false ∧
    is_regular_page "Category:Physics" = false ∧
    is_regular_page "Foo (disambiguation)" = false ∧
    is_regular_page "Albert Einstein" = true :=
  ⟨C3_page_filter_spec.1 "" rfl,
   C3_page_filter_spec.2.2.1 "List of sovereign states" (Or.inl (by decide)),
   C3_page_filter_spec.2.2.2.2.1 "Category:Physics" (by decide),
   C3_page_filter_spec.2.2.2.2.2.1 "Foo (disambiguation)" (by decide),
   C3_page_filter_spec.2.2.2.2.2.2⟩

/-- C4: repeated lookups of the same topic with no intervening invalidation
return identical reference lists, whichever tier served the first call. -/
theorem C4_cache_idempotent (env : Env) (c : Cache) (t : String) :
    (get_page_links_with_cache env (get_page_links_with_cache env c t).2 t).1
      = (get_page_links_with_cache env c t).1 := by
  by_cases ht : t = ""
  · simp [get_page_links_with_cache, ht]
  · cases hmem : lookupA c.memory t with
    | some v =>
      simp [get_page_links_with_cache, ht, hmem]
    | none =>
      by_cases hrf : env.dbReadFail t
      · have h1 : get_page_links_with_cache env c t = ([], memSet c t []) := by
          simp [get_page_links_with_cache, ht, hmem, hrf]
        rw [h1]
        simp [get_page_links_with_cache, ht, lookupA_memSet hmem]
      · cases hdb : lookupA c.db t with
        | some raw =>
          have h1 : get_page_links_with_cache env c t = finishFetch c t raw := by
            simp [get_page_links_with_cache, ht, hmem, hrf, hdb]
          rw [h1]
          simp [get_page_links_with_cache, finishFetch, ht,
            lookupA_memFlushSet hmem]
        | none =>
          cases hpg : env.getPage t with
          | none =>
            have h1 : get_page_links_with_cache env c t = ([], memSet c t []) := by
              simp [get_page_links_with_cache, ht, hmem, hrf, hdb, hpg]
            rw [h1]
            simp [get_page_links_with_cache, ht, lookupA_memSet hmem]
          | some pg =>
            have h1 : get_page_links_with_cache env c t =
                finishFetch (if env.dbWriteFail t then c else dbSet c t (rawOf env t pg))
                  t (rawOf env t pg) := by
              simp [get_page_links_with_cache, ht, hmem, hrf, hdb, hpg]
            have hmem2 : lookupA (if env.dbWriteFail t then c
                else dbSet c t (rawOf env t pg)).memory t = none := by
              by_cases hw : env.dbWriteFail t <;> simp [hw, dbSet, hmem]
            rw [h1]
            simp [get_page_links_with_cache, finishFetch, ht,
              lookupA_memFlushSet hmem2]

theorem filterLinks_clean (t : String) (links : List String) :
    t ∉ filterLinks t links ∧
    ∀ x ∈ filterLinks t links, x ≠ "" ∧ is_regular_page x = true := by
  constructor
  · intro hmem
    have := (List.mem_filter.mp hmem).2
    simp at this
  · intro x hx
    have := (List.mem_filter.mp hx).2
    simp at this
    exact ⟨this.1.1, this.1.2⟩

/-- C5 counterexample: after one fetch, the durable tier maps the topic to
the raw combined list, which contains both the topic itself and an entry the
page filter classifies as meta, contradicting the claim that the stored list
is the filtered reference list. -/
theorem C5_stored_record_counterexample :
    lookupA (get_page_links_with_cache testEnvMeta cache0 "T").2.db "T"
      = some ["Category:Stuff", "T", "Real Article"] ∧
    "T" ∈ ["Category:Stuff", "T", "Real Article"] ∧
    is_regular_page "Category:Stuff" = false := by decide

/-- C5 amended: the durable tier stores the raw combined link-plus-category
list exactly as fetched (pre-filter); the filter and self-exclusion are
applied on the value handed back to callers, so from a clean hot tier the
returned reference list never contains the topic itself, an empty name, or
an entry the page filter rejects, and the hot tier stays clean. -/
theorem C5_durable_raw_amended (env : Env) (c : Cache) (t : String)
    (hm : MemClean c) :
    ((get_page_links_with_cache env c t).2.db = c.db ∨
      ∃ pg, env.getPage t = some pg ∧ lookupA c.db t = none ∧
        (get_page_links_with_cache env c t).2.db = (t, rawOf env t pg) :: c.db) ∧
    (t ∉ (get_page_links_with_cache env c t).1 ∧
      ∀ x ∈ (get_page_links_with_cache env c t).1,
        x ≠ "" ∧ is_regular_page x = true) ∧
    MemClean (get_page_links_with_cache env c t).2 := by
  by_cases ht : t = ""
  · have h1 : get_page_links_with_cache env c t = ([], c) := by
      simp [get_page_links_with_cache, ht]
    rw [h1]
    exact ⟨Or.inl rfl, ⟨by simp, by simp⟩, hm⟩
  · cases hmem : lookupA c.memory t with
    | some v =>
      have h1 : get_page_links_with_cache env c t = (v, c) := by
        simp [get_page_links_with_cache, ht, hmem]
      rw [h1]
      exact ⟨Or.inl rfl, hm (t, v) (lookupA_mem hmem), hm⟩
    | none =>
      by_cases hrf : env.dbReadFail t
      · have h1 : get_page_links_with_cache env c t = ([], memSet c t []) := by
          simp [get_page_links_with_cache, ht, hmem, hrf]
        rw [h1]
        refine ⟨Or.inl rfl, ⟨by simp, by simp⟩, ?_⟩
        intro p hp
        rcases mem_memSet hp with hp | hp
        · exact hm p hp
        · subst hp; exact ⟨by simp, by simp⟩
      · cases hdb : lookupA c.db t with
        | some raw =>
          have h1 : get_page_links_with_cache env c t = finishFetch c t raw := by
            simp [get_page_links_with_cache, ht, hmem, hrf, hdb]
          rw [h1]
          refine ⟨Or.inl rfl, filterLinks_clean t raw, ?_⟩
          intro p hp
          rcases mem_memFlushSet hp with hp | hp
          · exact hm p hp
          · subst hp; exact filterLinks_clean t raw
        | none =>
          cases hpg : env.getPage t with
          | none =>
            have h1 : get_page_links_with_cache env c t = ([], memSet c t []) := by
              simp [get_page_links_with_cache, ht, hmem, hrf, hdb, hpg]
            rw [h1]
            refine ⟨Or.inl rfl, ⟨by simp, by simp⟩, ?_⟩
            intro p hp
            rcases mem_memSet hp with hp | hp
            · exact hm p hp
            · subst hp; exact ⟨by simp, by simp⟩
          | some pg =>
            by_cases hw : env.dbWriteFail t
            · have h1 : get_page_links_with_cache env c t
                  = finishFetch c t (rawOf env t pg) := by
                simp [get_page_links_with_cache, ht, hmem, hrf, hdb, hpg, hw]
              rw [h1]
              refine ⟨Or.inl rfl, filterLinks_clean t (rawOf env t pg), ?_⟩
              intro p hp
              rcases mem_memFlushSet hp with hp | hp
              · exact hm p hp
              · subst hp; exact filterLinks_clean t (rawOf env t pg)
            · have h1 : get_page_links_with_cache env c t
                  = finishFetch (dbSet c t (rawOf env t pg)) t (rawOf env t pg) := by
                simp [get_page_links_with_cache, ht, hmem, hrf, hdb, hpg, hw]
              rw [h1]
              refine ⟨Or.inr ⟨pg, rfl, rfl, rfl⟩,
                filterLinks_clean t (rawOf env t pg), ?_⟩
              intro p hp
              rcases mem_memFlushSet hp with hp | hp
              · exact hm p (by simpa [dbSet] using hp)
              · subst hp; exact filterLinks_clean t (rawOf env t pg)

/-- C5 witness for the amended theorem on a concrete clean state. -/
theorem C5_durable_raw_amended_witness :
    MemClean cache0 ∧
    "A" ∉ (get_page_links_with_cache testEnv cache0 "A").1 := by
  have hm : MemClean cache0 := by intro p hp; simp [cache0] at hp
  exact ⟨hm, (C5_durable_raw_amended testEnv cache0 "A" hm).2.1.1⟩

/-- C8: with identical nonempty endpoint topics the orchestrator returns the
single-element path, through the start-equals-end shortcut of the direct
connection finder, touching neither the cache nor the network. -/
theorem C8_same_endpoint (env : Env) (c : Cache) (k : Nat) (sp ep : WikiPage)
    (timeout : Nat) (heq : sp.title = ep.title) (hne : sp.title ≠ "") :
    find_direct_connection env c sp.title sp.title = (some [sp.title], c) ∧
    find_short_path env c k (some sp) (some ep) timeout
      = ([sp.title], c, k + 1) := by
  obtain ⟨st, sl, scats⟩ := sp
  obtain ⟨et, el, ecats⟩ := ep
  simp only [WikiPage.title] at heq hne ⊢
  subst heq
  have hdc : find_direct_connection env c st st = (some [st], c) := by
    simp [find_direct_connection]
  refine ⟨hdc, ?_⟩
  have hbfs : find_path_bfs env c k st st 6 timeout
      = (some [st], c, k + 1, 0) := by
    simp [find_path_bfs, hdc]
  simp [find_short_path, hne, hbfs, verify_path_exists]

/-- C8 witness: the concrete run with both endpoints the page titled A. -/
theorem C8_same_endpoint_witness :
    pageA.title = pageA.title ∧ pageA.title ≠ "" ∧
    find_short_path testEnv cache0 0 (some pageA) (some pageA) 15
      = (["A"], cache0, 1) :=
  ⟨rfl, by decide,
   (C8_same_endpoint testEnv cache0 0 pageA pageA 15 rfl (by decide)).2⟩

theorem bfsLoop_timeout {env : Env} {startTime timeout : Nat} {endTitle : String}
    {maxDepth fuel : Nat} {c : Cache} {k : Nat} {cur : String}
    {path : List String} {rest : List (String × List String)}
    {visited : List String} (h : env.time k - startTime > timeout) :
    bfsLoop env startTime timeout endTitle maxDepth (fuel + 1) c k
      ((cur, path) :: rest) visited = (none, c, k + 1, 0) := by
  simp [bfsLoop, h]

/-- C9: with a zero time budget and an advancing clock, once the direct
connection finder fails the BFS loop aborts at its first budget check,
dequeuing and expanding nothing and leaving the cache untouched, and the
orchestrator falls through to the category fallback. -/
theorem C9_zero_budget (env : Env) (c c1 : Cache) (k : Nat) (sp ep : WikiPage)
    (hdc : find_direct_connection env c sp.title ep.title = (none, c1))
    (hclk : env.time k < env.time (k + 1))
    (hs : sp.title ≠ "") (he : ep.title ≠ "") :
    find_path_bfs env c k sp.title ep.title 6 0 = (none, c1, k + 2, 0) ∧
    find_short_path env c k (some sp) (some ep) 0
      = ((categoryFallback env c1 sp.title ep.title).1,
         (categoryFallback env c1 sp.title ep.title).2, k + 2) := by
  have ht : env.time (k + 1) - env.time k > 0 := by omega
  have hbfs : find_path_bfs env c k sp.title ep.title 6 0
      = (none, c1, k + 2, 0) := by
    simp only [find_path_bfs, hdc]
    exact bfsLoop_timeout ht
  refine ⟨hbfs, ?_⟩
  simp [find_short_path, hs, he, hbfs]

/-- C9 witness: the concrete zero-budget run from A to Z. -/
theorem C9_zero_budget_witness :
    find_direct_connection testEnv cache0 pageA.title pageZ.title
      = (none, (find_direct_connection testEnv cache0 pageA.title pageZ.title).2) ∧
    testEnv.time 0 < testEnv.time 1 ∧
    pageA.title ≠ "" ∧ pageZ.title ≠ "" ∧
    (find_path_bfs testEnv cache0 0 pageA.title pageZ.title 6 0).1 = none := by
  have h1 : find_direct_connection testEnv cache0 pageA.title pageZ.title
      = (none, (find_direct_connection testEnv cache0 pageA.title pageZ.title).2) := by
    decide
  refine ⟨h1, by decide, by decide, by decide, ?_⟩
  rw [(C9_zero_budget testEnv cache0 _ 0 pageA pageZ h1 (by decide)
    (by decide) (by decide)).1]

theorem bfsLoop_deq_le (env : Env) (startTime timeout : Nat) (endTitle : String)
    (maxDepth : Nat) :
    ∀ (fuel : Nat) (c : Cache) (k : Nat) (queue : List (String × List String))
      (visited : List String),
      (bfsLoop env startTime timeout endTitle maxDepth fuel c k
        queue visited).2.2.2 ≤ fuel := by
  intro fuel
  induction fuel with
  | zero => intro c k queue visited; simp [bfsLoop]
  | succ fuel ih =>
    intro c k queue visited
    match queue with
    | [] => simp [bfsLoop]
    | (cur, path) :: rest =>
      by_cases htime : env.time k - startTime > timeout
      · simp [bfsLoop, htime]
      · by_cases hdepth : maxDepth ≤ path.length
        · simp only [bfsLoop, if_neg htime, if_pos hdepth]
          have := ih c (k + 1) rest visited
          simp only [addDeq]
          omega
        · simp only [bfsLoop, if_neg htime, if_neg hdepth]
          rcases hscan : scanNeighbors env endTitle path visited (tokenWords endTitle)
              (get_page_links_with_cache env c cur).2
              (get_page_links_with_cache env c cur).1 [] with ⟨o, c2, sc⟩
          cases o with
          | some fp =>
            dsimp only
            omega
          | none =>
            dsimp only
            simp only [addDeq]
            have := ih c2 (k + 1)
              (rest ++ (enqueueTop path visited (topCandidates sc)).2)
              (enqueueTop path visited (topCandidates sc)).1
            omega

/-- C6: the BFS dequeues at most 5000 nodes in one invocation, and a
dequeued node whose path already has max_depth elements is skipped: the loop
continues on the remaining frontier with the same cache and the same clock
step, fetching no references and enqueuing nothing from that node. -/
theorem C6_bfs_bounds :
    (∀ (env : Env) (c : Cache) (k : Nat) (s e : String) (maxDepth timeout : Nat),
      (find_path_bfs env c k s e maxDepth timeout).2.2.2 ≤ 5000) ∧
    (∀ (env : Env) (startTime timeout : Nat) (endTitle : String)
      (maxDepth fuel : Nat) (c : Cache) (k : Nat) (cur : String)
      (path : List String) (rest : List (String × List String))
      (visited : List String),
      maxDepth ≤ path.length → ¬ env.time k - startTime > timeout →
      bfsLoop env startTime timeout endTitle maxDepth (fuel + 1) c k
          ((cur, path) :: rest) visited
        = addDeq (bfsLoop env startTime timeout endTitle maxDepth fuel c (k + 1)
            rest visited)) := by
  constructor
  · intro env c k s e maxDepth timeout
    unfold find_path_bfs
    rcases hdc : find_direct_connection env c s e with ⟨o, c1⟩
    cases o with
    | some p => simp [hdc]
    | none =>
      simp only [hdc]
      exact bfsLoop_deq_le env (env.time k) timeout e maxDepth 5000 c1 (k + 1)
        [(s, [s])] [s]
  · intro env startTime timeout endTitle maxDepth fuel c k cur path rest
      visited hdepth htime
    simp [bfsLoop, htime, hdepth]

/-- C6 witness: the bound on a concrete search, and a concrete skipped
at-depth node. -/
theorem C6_bfs_bounds_witness :
    (find_path_bfs testEnv cache0 0 "A" "C" 6 15).2.2.2 ≤ 5000 ∧
    (6 ≤ (["p1", "p2", "p3", "p4", "p5", "p6"] : List String).length ∧
      ¬ testEnv.time 5 - testEnv.time 0 > 15) ∧
    bfsLoop testEnv (testEnv.time 0) 15 "C" 6 (41 + 1) cache0 5
        [("N", ["p1", "p2", "p3", "p4", "p5", "p6"])] ["A"]
      = addDeq (bfsLoop testEnv (testEnv.time 0) 15 "C" 6 41 cache0 6 [] ["A"]) :=
  ⟨C6_bfs_bounds.1 testEnv cache0 0 "A" "C" 6 15,
   ⟨by decide, by decide⟩,
   C6_bfs_bounds.2 testEnv (testEnv.time 0) 15 "C" 6 41 cache0 5 "N"
     ["p1", "p2", "p3", "p4", "p5", "p6"] [] ["A"] (by decide) (by decide)⟩

theorem scanNeighbors_none_acc (env : Env) (endTitle : String)
    (path : List String) (visited : List String) (endWords : List String) :
    ∀ (ns : List String) (c : Cache) (acc : List (String × Nat)),
      (scanNeighbors env endTitle path visited endWords c ns acc).1 = none →
      (scanNeighbors env endTitle path visited endWords c ns acc).2.2
        = acc ++ candidateScores endWords visited ns := by
  intro ns
  induction ns with
  | nil =>
    intro c acc h
    simp [scanNeighbors, candidateScores]
  | cons n ns ih =>
    intro c acc
    simp only [scanNeighbors]
    have hcands : candidateScores endWords visited (n :: ns)
        = (if n ∉ visited ∧ n.length < 100
            then [(n, relevance_score endWords n)] else [])
          ++ candidateScores endWords visited ns := by
      by_cases hcond : n ∉ visited ∧ n.length < 100
      · simp [candidateScores, List.filter_cons, hcond]
      · simp [candidateScores, List.filter_cons, hcond]
    by_cases hn : n = endTitle
    · simp only [if_pos hn]
      rcases hv : verify_path_exists env c (path ++ [n]) with ⟨b, c'⟩
      cases b with
      | true =>
        dsimp only
        intro h
        simp at h
      | false =>
        dsimp only
        by_cases hcond : n ∉ visited ∧ n.length < 100
        · simp only [if_pos hcond]
          intro h
          rw [ih c' (acc ++ [(n, relevance_score endWords n)]) h, hcands]
          simp [hcond]
        · simp only [if_neg hcond]
          intro h
          rw [ih c' acc h, hcands]
          simp [hcond]
    · simp only [if_neg hn]
      by_cases hcond : n ∉ visited ∧ n.length < 100
      · simp only [if_pos hcond]
        intro h
        rw [ih c (acc ++ [(n, relevance_score endWords n)]) h, hcands]
        simp [hcond]
      · simp only [if_neg hcond]
        intro h
        rw [ih c acc h, hcands]
        simp [hcond]

theorem enqueueTop_spec (path : List String) :
    ∀ (ns visited : List String),
      ((enqueueTop path visited ns).2.map (fun q => q.1)).Sublist ns ∧
      ((enqueueTop path visited ns).2.map (fun q => q.1)).Nodup ∧
      (∀ n ∈ (enqueueTop path visited ns).2.map (fun q => q.1), n ∉ visited) ∧
      (∀ n ∈ ns, n ∉ visited →
        n ∈ (enqueueTop path visited ns).2.map (fun q => q.1)) := by
  intro ns
  induction ns with
  | nil => intro visited; simp [enqueueTop]
  | cons n ns ih =>
    intro visited
    by_cases hn : n ∈ visited
    · simp only [enqueueTop, if_pos hn]
      obtain ⟨hsub, hnd, hnv, hcov⟩ := ih visited
      refine ⟨hsub.cons n, hnd, hnv, ?_⟩
      intro m hm hmv
      rcases List.mem_cons.mp hm with rfl | hm
      · exact absurd hn hmv
      · exact hcov m hm hmv
    · simp only [enqueueTop, if_neg hn]
      obtain ⟨hsub, hnd, hnv, hcov⟩ := ih (n :: visited)
      rw [List.map_cons]
      refine ⟨hsub.cons₂ n, ?_, ?_, ?_⟩
      · refine List.nodup_cons.mpr ⟨?_, hnd⟩
        intro hmem
        exact (hnv n hmem) (List.mem_cons_self n visited)
      · intro m hm
        rcases List.mem_cons.mp hm with rfl | hm
        · exact hn
        · intro hmv
          exact (hnv m hm) (List.mem_cons_of_mem _ hmv)
      · intro m hm hmv
        rcases List.mem_cons.mp hm with rfl | hm
        · exact List.mem_cons_self _ _
        · by_cases hmn : m = n
          · subst hmn; exact List.mem_cons_self _ _
          · have hm2 : m ∉ n :: visited := by
              intro hx
              rcases List.mem_cons.mp hx with h | h
              · exact hmn h
              · exact hmv h
            exact List.mem_cons_of_mem _ (hcov m hm hm2)

theorem insertionSort_canonical {endWords : List String}
    {visited neighbors : List String} {x : String × Nat}
    (hx : x ∈ List.insertionSort scoredRel (candidateScores endWords visited neighbors)) :
    x = (x.1, relevance_score endWords x.1) := by
  have hx2 : x ∈ candidateScores endWords visited neighbors :=
    (List.perm_insertionSort scoredRel _).mem_iff.mp hx
  simp only [candidateScores, List.mem_map] at hx2
  obtain ⟨n, _, rfl⟩ := hx2
  rfl

theorem topCandidates_mem {endWords : List String}
    {visited neighbors : List String} {m : String}
    (hm : m ∈ topCandidates (candidateScores endWords visited neighbors)) :
    m ∈ neighbors ∧ m ∉ visited ∧ m.length < 100 := by
  simp only [topCandidates, List.mem_map] at hm
  obtain ⟨x, hx, rfl⟩ := hm
  have hx2 : x ∈ List.insertionSort scoredRel
      (candidateScores endWords visited neighbors) :=
    List.mem_of_mem_take hx
  have hx3 := (List.perm_insertionSort scoredRel _).mem_iff.mp hx2
  simp only [candidateScores, List.mem_map] at hx3
  obtain ⟨n, hn, rfl⟩ := hx3
  have hf := List.mem_filter.mp hn
  simp only [decide_eq_true_eq] at hf
  exact ⟨hf.1, hf.2.1, hf.2.2⟩

theorem topCandidates_length (scored : List (String × Nat)) :
    (topCandidates scored).length ≤ 10 := by
  simp only [topCandidates, List.length_map, List.length_take]
  omega

theorem topCandidates_pairwise (endWords : List String)
    (visited neighbors : List String) :
    (topCandidates (candidateScores endWords visited neighbors)).Pairwise
      (fun a b => scoredRel (a, relevance_score endWords a)
        (b, relevance_score endWords b)) := by
  have hs : (List.insertionSort scoredRel
      (candidateScores endWords visited neighbors)).Pairwise scoredRel :=
    List.sorted_insertionSort scoredRel _
  have ht : ((List.insertionSort scoredRel
      (candidateScores endWords visited neighbors)).take 10).Pairwise scoredRel :=
    hs.sublist (List.take_sublist 10 _)
  unfold topCandidates
  rw [List.pairwise_map]
  refine ht.imp_of_mem ?_
  intro a b ha hb hab
  have ha2 := insertionSort_canonical (List.mem_of_mem_take ha)
  have hb2 := insertionSort_canonical (List.mem_of_mem_take hb)
  rw [← ha2, ← hb2]
  exact hab

theorem topCandidates_best {endWords : List String}
    {visited neighbors : List String} {cand : String}
    (hc : cand ∈ neighbors) (hv : cand ∉ visited) (hl : cand.length < 100)
    (hnot : cand ∉ topCandidates (candidateScores endWords visited neighbors)) :
    ∀ e ∈ topCandidates (candidateScores endWords visited neighbors),
      scoredRel (e, relevance_score endWords e)
        (cand, relevance_score endWords cand) := by
  intro e he
  have hcand : (cand, relevance_score endWords cand)
      ∈ candidateScores endWords visited neighbors := by
    simp only [candidateScores, List.mem_map]
    refine ⟨cand, ?_, rfl⟩
    rw [List.mem_filter]
    simp only [decide_eq_true_eq]
    exact ⟨hc, hv, hl⟩
  have hsorted : List.Sorted scoredRel (List.insertionSort scoredRel
      (candidateScores endWords visited neighbors)) :=
    List.sorted_insertionSort scoredRel _
  have hmem : (cand, relevance_score endWords cand)
      ∈ List.insertionSort scoredRel (candidateScores endWords visited neighbors) :=
    (List.perm_insertionSort scoredRel _).mem_iff.mpr hcand
  have hnottake : (cand, relevance_score endWords cand)
      ∉ (List.insertionSort scoredRel
          (candidateScores endWords visited neighbors)).take 10 := by
    intro hx
    apply hnot
    simp only [topCandidates, List.mem_map]
    exact ⟨_, hx, rfl⟩
  have hdrop : (cand, relevance_score endWords cand)
      ∈ (List.insertionSort scoredRel
          (candidateScores endWords visited neighbors)).drop 10 := by
    have hsplit := List.take_append_drop 10 (List.insertionSort scoredRel
      (candidateScores endWords visited neighbors))
    rw [← hsplit] at hmem
    rcases List.mem_append.mp hmem with h | h
    · exact absurd h hnottake
    · exact h
  simp only [topCandidates, List.mem_map] at he
  obtain ⟨x, hx, hxe⟩ := he
  have hxc := insertionSort_canonical (List.mem_of_mem_take hx)
  have hx2 : (e, relevance_score endWords e)
      ∈ (List.insertionSort scoredRel
          (candidateScores endWords visited neighbors)).take 10 := by
    rw [← hxe, ← hxc]
    exact hx
  exact hsorted.rel_of_mem_take_of_mem_drop hx2 hdrop

/-- C7: a node expansion enqueues at most 10 neighbors, all previously
unvisited with title length under 100; the enqueued names are, in order,
exactly the distinct names of the top 10 scored candidates, sorted by
descending relevance score with ties broken by ascending title length, and
every candidate left out scores no better than any enqueued one. The last
conjunct is the completeness half of exactness: a name is enqueued if and
only if it is in the top 10 slice, so every top-10 candidate really is
enqueued. The first conjunct ties the candidate list to what the BFS
neighbor scan accumulates. -/
theorem C7_expansion_pruning (endTitle : String) (path : List String)
    (visited : List String) (neighbors : List String) :
    (∀ (env : Env) (c : Cache),
      (scanNeighbors env endTitle path visited (tokenWords endTitle)
        c neighbors []).1 = none →
      (scanNeighbors env endTitle path visited (tokenWords endTitle)
        c neighbors []).2.2
        = candidateScores (tokenWords endTitle) visited neighbors) ∧
    (enqueuedNames endTitle path visited neighbors).length ≤ 10 ∧
    (enqueuedNames endTitle path visited neighbors).Nodup ∧
    (∀ n ∈ enqueuedNames endTitle path visited neighbors,
      n ∈ neighbors ∧ n ∉ visited ∧ n.length < 100) ∧
    (enqueuedNames endTitle path visited neighbors).Pairwise
      (fun a b => scoredRel (a, relevance_score (tokenWords endTitle) a)
        (b, relevance_score (tokenWords endTitle) b)) ∧
    (∀ cand ∈ neighbors, cand ∉ visited → cand.length < 100 →
      cand ∉ enqueuedNames endTitle path visited neighbors →
      ∀ e ∈ enqueuedNames endTitle path visited neighbors,
        scoredRel (e, relevance_score (tokenWords endTitle) e)
          (cand, relevance_score (tokenWords endTitle) cand)) ∧
    (∀ n, n ∈ enqueuedNames endTitle path visited neighbors ↔
      n ∈ topCandidates
        (candidateScores (tokenWords endTitle) visited neighbors)) := by
  obtain ⟨hsub, hnd, hnv, hcov⟩ := enqueueTop_spec path
    (topCandidates (candidateScores (tokenWords endTitle) visited neighbors)) visited
  refine ⟨?_, ?_, hnd, ?_, ?_, ?_, ?_⟩
  · intro env c h
    exact (scanNeighbors_none_acc env endTitle path visited (tokenWords endTitle)
      neighbors c [] h).trans (by simp)
  · exact hsub.length_le.trans (topCandidates_length _)
  · intro n hn
    exact topCandidates_mem (hsub.mem hn)
  · exact (topCandidates_pairwise (tokenWords endTitle) visited neighbors).sublist hsub
  · intro cand hc hv hl hnotE e he
    have hnottop : cand ∉ topCandidates
        (candidateScores (tokenWords endTitle) visited neighbors) := by
      intro htop
      exact hnotE (hcov cand htop hv)
    exact topCandidates_best hc hv hl hnottop e (hsub.mem he)
  · intro n
    constructor
    · exact fun hn => hsub.mem hn
    · intro htop
      exact hcov n htop (topCandidates_mem htop).2.1

/-- C7 witness: a concrete expansion in which a short unvisited neighbor is
enqueued and carries the candidate properties, and a concrete top-10
candidate is shown enqueued through the completeness direction. -/
theorem C7_expansion_pruning_witness :
    "B" ∈ enqueuedNames "C" ["A"] [] ["B", "Q"] ∧
    ("B" ∈ (["B", "Q"] : List String) ∧ "B" ∉ ([] : List String) ∧
      "B".length < 100) ∧
    "Q" ∈ topCandidates (candidateScores (tokenWords "C") [] ["B", "Q"]) ∧
    "Q" ∈ enqueuedNames "C" ["A"] [] ["B", "Q"] :=
  ⟨by decide,
   (C7_expansion_pruning "C" ["A"] [] ["B", "Q"]).2.2.2.1 "B" (by decide),
   by decide,
   ((C7_expansion_pruning "C" ["A"] [] ["B", "Q"]).2.2.2.2.2.2 "Q").mpr
     (by decide)⟩

theorem verify_stable (env : Env) {c : Cache} (hc : Coherent env c)
    (p : List String) (h : (verify_path_exists env c p).1 = true) :
    (verify_path_exists env (verify_path_exists env c p).2 p).1 = true := by
  obtain ⟨hc', hev⟩ := verify_state env p hc
  rw [verify_iff env p hc']
  rw [verify_iff env p hc] at h
  exact (chain_congr (fun a b => by rw [hev a])).mpr h

theorem tryNeighbors_spec (env : Env) (startT endT : String) :
    ∀ (ns : List String) {c : Cache}, Coherent env c →
      Coherent env (tryNeighbors env startT endT c ns).2 ∧
      ∀ p, (tryNeighbors env startT endT c ns).1 = some p →
        (∃ n, p = [startT, n, endT]) ∧
        (verify_path_exists env (tryNeighbors env startT endT c ns).2 p).1
          = true := by
  intro ns
  induction ns with
  | nil =>
    intro c hc
    exact ⟨hc, fun p hp => by simp [tryNeighbors] at hp⟩
  | cons n ns ih =>
    intro c hc
    rcases hv : verify_path_exists env c [startT, n, endT] with ⟨b, cv⟩
    have hvs := verify_state env [startT, n, endT] hc
    rw [hv] at hvs
    cases b with
    | true =>
      have h1 : tryNeighbors env startT endT c (n :: ns)
          = (some [startT, n, endT], cv) := by
        simp [tryNeighbors, hv]
      rw [h1]
      refine ⟨hvs.1, ?_⟩
      intro p hp
      have hp2 : p = [startT, n, endT] := by
        simpa using hp.symm
      subst hp2
      refine ⟨⟨n, rfl⟩, ?_⟩
      have := verify_stable env hc [startT, n, endT]
        (by rw [hv])
      rw [hv] at this
      exact this
    | false =>
      have h1 : tryNeighbors env startT endT c (n :: ns)
          = tryNeighbors env startT endT cv ns := by
        simp [tryNeighbors, hv]
      rw [h1]
      exact ih hvs.1

theorem find_direct_spec (env : Env) (startT endT : String) {c : Cache}
    (hc : Coherent env c) :
    Coherent env (find_direct_connection env c startT endT).2 ∧
    ∀ p, (find_direct_connection env c startT endT).1 = some p →
      p ≠ [] ∧ p.head? = some startT ∧ p.getLast? = some endT ∧
      p.length ≤ 3 := by
  by_cases heq : startT = endT
  · have h1 : find_direct_connection env c startT endT = (some [startT], c) := by
      simp [find_direct_connection, heq]
    rw [h1]
    refine ⟨hc, ?_⟩
    intro p hp
    have hp2 : p = [startT] := by simpa using hp.symm
    subst hp2
    simp [heq]
  · have hg1 := getLinks_state env hc startT
    by_cases hhop : endT ∈ (get_page_links_with_cache env c startT).1
    · have h1 : find_direct_connection env c startT endT
          = (some [startT, endT], (get_page_links_with_cache env c startT).2) := by
        simp [find_direct_connection, heq, hhop]
      rw [h1]
      refine ⟨hg1.1, ?_⟩
      intro p hp
      have hp2 : p = [startT, endT] := by simpa using hp.symm
      subst hp2
      simp
    · have hg2 := getLinks_state env hg1.1 endT
      have h1 : find_direct_connection env c startT endT
          = tryNeighbors env startT endT
              (get_page_links_with_cache env
                (get_page_links_with_cache env c startT).2 endT).2
              (((get_page_links_with_cache env c startT).1.filter
                (fun l => decide (l ∈ (get_page_links_with_cache env
                  (get_page_links_with_cache env c startT).2 endT).1))).take 3) := by
        simp [find_direct_connection, heq, hhop]
      rw [h1]
      obtain ⟨htc, htf⟩ := tryNeighbors_spec env startT endT _ hg2.1
      refine ⟨htc, ?_⟩
      intro p hp
      obtain ⟨⟨n, rfl⟩, _⟩ := htf p hp
      simp

theorem enqueueTop_item_form (path : List String) :
    ∀ (ns visited : List String), ∀ q ∈ (enqueueTop path visited ns).2,
      q.2 = path ++ [q.1] := by
  intro ns
  induction ns with
  | nil => intro visited q hq; simp [enqueueTop] at hq
  | cons n ns ih =>
    intro visited q hq
    by_cases hn : n ∈ visited
    · simp only [enqueueTop, if_pos hn] at hq
      exact ih visited q hq
    · simp only [enqueueTop, if_neg hn] at hq
      rcases List.mem_cons.mp hq with rfl | hq
      · rfl
      · exact ih (n :: visited) q hq

theorem scanNeighbors_spec (env : Env) (endTitle : String) (path : List String)
    (visited : List String) (endWords : List String) :
    ∀ (ns : List String) {c : Cache} (acc : List (String × Nat)),
      Coherent env c →
      Coherent env (scanNeighbors env endTitle path visited endWords c ns acc).2.1 ∧
      ∀ fp, (scanNeighbors env endTitle path visited endWords c ns acc).1 = some fp →
        fp = path ++ [endTitle] := by
  intro ns
  induction ns with
  | nil =>
    intro c acc hc
    exact ⟨hc, fun fp hfp => by simp [scanNeighbors] at hfp⟩
  | cons n ns ih =>
    intro c acc hc
    simp only [scanNeighbors]
    by_cases hn : n = endTitle
    · simp only [if_pos hn]
      rcases hv : verify_path_exists env c (path ++ [n]) with ⟨b, c'⟩
      have hvs := verify_state env (path ++ [n]) hc
      rw [hv] at hvs
      cases b with
      | true =>
        dsimp only
        refine ⟨hvs.1, ?_⟩
        intro fp hfp
        have : path ++ [n] = fp := by simpa using hfp
        rw [← this, hn]
      | false =>
        dsimp only
        by_cases hcond : n ∉ visited ∧ n.length < 100
        · simp only [if_pos hcond]
          exact ih _ hvs.1
        · simp only [if_neg hcond]
          exact ih _ hvs.1
    · simp only [if_neg hn]
      by_cases hcond : n ∉ visited ∧ n.length < 100
      · simp only [if_pos hcond]
        exact ih _ hc
      · simp only [if_neg hcond]
        exact ih _ hc

theorem head?_append_singleton {p : List String} (h : p ≠ []) (x : String) :
    (p ++ [x]).head? = p.head? := by
  cases p with
  | nil => exact absurd rfl h
  | cons a t => rfl

theorem bfsLoop_spec (env : Env) (startTime timeout : Nat)
    (endTitle startT : String) (maxDepth : Nat) :
    ∀ (fuel : Nat) {c : Cache} (k : Nat) (queue : List (String × List String))
      (visited : List String), Coherent env c →
      (∀ it ∈ queue, it.2 ≠ [] ∧ it.2.head? = some startT ∧
        it.2.length ≤ maxDepth) →
      Coherent env (bfsLoop env startTime timeout endTitle maxDepth fuel c k
        queue visited).2.1 ∧
      ∀ p, (bfsLoop env startTime timeout endTitle maxDepth fuel c k
          queue visited).1 = some p →
        p ≠ [] ∧ p.head? = some startT ∧ p.getLast? = some endTitle ∧
        p.length ≤ maxDepth := by
  intro fuel
  induction fuel with
  | zero =>
    intro c k queue visited hc hq
    exact ⟨hc, fun p hp => by simp [bfsLoop] at hp⟩
  | succ fuel ih =>
    intro c k queue visited hc hq
    match queue with
    | [] => exact ⟨hc, fun p hp => by simp [bfsLoop] at hp⟩
    | (cur, path) :: rest =>
      by_cases htime : env.time k - startTime > timeout
      · have h1 : bfsLoop env startTime timeout endTitle maxDepth (fuel + 1) c k
            ((cur, path) :: rest) visited = (none, c, k + 1, 0) := by
          simp [bfsLoop, htime]
        rw [h1]
        exact ⟨hc, fun p hp => by simp at hp⟩
      · have hrest : ∀ it ∈ rest, it.2 ≠ [] ∧ it.2.head? = some startT ∧
            it.2.length ≤ maxDepth :=
          fun it hit => hq it (List.mem_cons_of_mem _ hit)
        by_cases hdepth : maxDepth ≤ path.length
        · have h1 : bfsLoop env startTime timeout endTitle maxDepth (fuel + 1) c k
              ((cur, path) :: rest) visited
              = addDeq (bfsLoop env startTime timeout endTitle maxDepth fuel c
                  (k + 1) rest visited) := by
            simp [bfsLoop, htime, hdepth]
          rw [h1]
          exact ih (k + 1) rest visited hc hrest
        · obtain ⟨hpne, hphead, hplen⟩ := hq (cur, path) (List.mem_cons_self _ _)
          have hg := getLinks_state env hc cur
          rcases hscan : scanNeighbors env endTitle path visited
              (tokenWords endTitle) (get_page_links_with_cache env c cur).2
              (get_page_links_with_cache env c cur).1 [] with ⟨o, c2, sc⟩
          have hss := scanNeighbors_spec env endTitle path visited
            (tokenWords endTitle) (get_page_links_with_cache env c cur).1 []
            hg.1
          rw [hscan] at hss
          have h1 : bfsLoop env startTime timeout endTitle maxDepth (fuel + 1) c k
              ((cur, path) :: rest) visited
              = match (o, c2, sc) with
                | (some fp, c2, _) => (some fp, c2, k + 1, 1)
                | (none, c2, scored) =>
                  addDeq (bfsLoop env startTime timeout endTitle maxDepth fuel c2
                    (k + 1) (rest ++ (enqueueTop path visited
                      (topCandidates scored)).2)
                    (enqueueTop path visited (topCandidates scored)).1) := by
            simp only [bfsLoop, if_neg htime, if_neg hdepth]
            rw [hscan]
          rw [h1]
          cases o with
          | some fp =>
            dsimp only
            refine ⟨hss.1, ?_⟩
            intro p hp
            have hpfp : fp = p := by simpa using hp
            subst hpfp
            have hform := hss.2 fp rfl
            subst hform
            refine ⟨by simp, ?_, ?_, ?_⟩
            · rw [head?_append_singleton hpne]
              exact hphead
            · exact List.getLast?_concat path
            · simp only [List.length_append, List.length_cons, List.length_nil]
              omega
          | none =>
            dsimp only
            have hnew : ∀ it ∈ rest ++ (enqueueTop path visited
                (topCandidates sc)).2, it.2 ≠ [] ∧ it.2.head? = some startT ∧
                it.2.length ≤ maxDepth := by
              intro it hit
              rcases List.mem_append.mp hit with hit | hit
              · exact hrest it hit
              · have hform := enqueueTop_item_form path
                  (topCandidates sc) visited it hit
                rw [hform]
                refine ⟨by simp, ?_, ?_⟩
                · rw [head?_append_singleton hpne]
                  exact hphead
                · simp only [List.length_append, List.length_cons,
                    List.length_nil]
                  omega
            exact ih (k + 1) _ _ hss.1 hnew

theorem find_path_bfs_spec (env : Env) {c : Cache} (k : Nat)
    (startT endT : String) (maxDepth timeout : Nat) (hc : Coherent env c)
    (hmd : 3 ≤ maxDepth) :
    Coherent env (find_path_bfs env c k startT endT maxDepth timeout).2.1 ∧
    ∀ p, (find_path_bfs env c k startT endT maxDepth timeout).1 = some p →
      p ≠ [] ∧ p.head? = some startT ∧ p.getLast? = some endT ∧
      p.length ≤ maxDepth := by
  have hd := find_direct_spec env startT endT hc
  unfold find_path_bfs
  rcases hdc : find_direct_connection env c startT endT with ⟨o, c1⟩
  rw [hdc] at hd
  cases o with
  | some p0 =>
    dsimp only at hd ⊢
    refine ⟨hd.1, ?_⟩
    intro p hp
    have hp2 : p0 = p := by simpa using hp
    subst hp2
    obtain ⟨h1, h2, h3, h4⟩ := hd.2 p0 rfl
    exact ⟨h1, h2, h3, by omega⟩
  | none =>
    dsimp only at hd ⊢
    refine bfsLoop_spec env (env.time k) timeout endT startT maxDepth 5000
      (k + 1) [(startT, [startT])] [startT] hd.1 ?_
    intro it hit
    have : it = (startT, [startT]) := by simpa using hit
    subst this
    refine ⟨by simp, by simp, ?_⟩
    simp only [List.length_cons, List.length_nil]
    omega

theorem tryCats_spec (env : Env) (startT endT : String) :
    ∀ (cats : List String) {c : Cache}, Coherent env c →
      Coherent env (tryCats env startT endT c cats).2 ∧
      ((tryCats env startT endT c cats).1 = [] ∨
        ((∃ cat, (tryCats env startT endT c cats).1 = [startT, cat, endT]) ∧
          (verify_path_exists env (tryCats env startT endT c cats).2
            (tryCats env startT endT c cats).1).1 = true)) := by
  intro cats
  induction cats with
  | nil =>
    intro c hc
    exact ⟨hc, Or.inl rfl⟩
  | cons cat cats ih =>
    intro c hc
    rcases hv : verify_path_exists env c [startT, cat, endT] with ⟨b, cv⟩
    have hvs := verify_state env [startT, cat, endT] hc
    rw [hv] at hvs
    cases b with
    | true =>
      have h1 : tryCats env startT endT c (cat :: cats)
          = ([startT, cat, endT], cv) := by
        simp [tryCats, hv]
      rw [h1]
      refine ⟨hvs.1, Or.inr ⟨⟨cat, rfl⟩, ?_⟩⟩
      have hst := verify_stable env hc [startT, cat, endT] (by rw [hv])
      rw [hv] at hst
      exact hst
    | false =>
      have h1 : tryCats env startT endT c (cat :: cats)
          = tryCats env startT endT cv cats := by
        simp [tryCats, hv]
      rw [h1]
      exact ih hvs.1

theorem categoryFallback_spec (env : Env) (startT endT : String) {c : Cache}
    (hc : Coherent env c) :
    Coherent env (categoryFallback env c startT endT).2 ∧
    ((categoryFallback env c startT endT).1 = [] ∨
      ((∃ cat, (categoryFallback env c startT endT).1 = [startT, cat, endT]) ∧
        (verify_path_exists env (categoryFallback env c startT endT).2
          (categoryFallback env c startT endT).1).1 = true)) := by
  unfold categoryFallback
  rcases hsp : env.getPage startT with _ | spo
  · exact ⟨hc, Or.inl rfl⟩
  · rcases hep : env.getPage endT with _ | epo
    · exact ⟨hc, Or.inl rfl⟩
    · dsimp only
      by_cases hcf : (env.catsFail startT || env.catsFail endT) = true
      · rw [if_pos hcf]
        exact ⟨hc, Or.inl rfl⟩
      · rw [if_neg hcf]
        exact tryCats_spec env startT endT _ hc

theorem find_short_path_main (env : Env) {c : Cache} (k : Nat)
    (sp ep : WikiPage) (timeout : Nat) (hc : Coherent env c) :
    (find_short_path env c k (some sp) (some ep) timeout).1 = [] ∨
    ((verify_path_exists env
        (find_short_path env c k (some sp) (some ep) timeout).2.1
        (find_short_path env c k (some sp) (some ep) timeout).1).1 = true ∧
      (find_short_path env c k (some sp) (some ep) timeout).1.head?
        = some sp.title ∧
      (find_short_path env c k (some sp) (some ep) timeout).1.getLast?
        = some ep.title ∧
      (find_short_path env c k (some sp) (some ep) timeout).1.length ≤ 6) := by
  by_cases hg : sp.title = "" ∨ ep.title = ""
  · have h1 : find_short_path env c k (some sp) (some ep) timeout = ([], c, k) := by
      simp [find_short_path, hg]
    rw [h1]
    exact Or.inl rfl
  · have hb := find_path_bfs_spec env k sp.title ep.title 6 timeout hc (by omega)
    rcases hbfs : find_path_bfs env c k sp.title ep.title 6 timeout
      with ⟨o, c1, k1, d⟩
    rw [hbfs] at hb
    dsimp only at hb
    cases o with
    | some p0 =>
      by_cases hp0 : p0 = []
      · have h1 : find_short_path env c k (some sp) (some ep) timeout
            = ((categoryFallback env c1 sp.title ep.title).1,
               (categoryFallback env c1 sp.title ep.title).2, k1) := by
          simp only [find_short_path, hbfs]
          simp [hg, hp0]
        rw [h1]
        obtain ⟨hcfc, hforms⟩ := categoryFallback_spec env sp.title ep.title hb.1
        rcases hforms with hempty | ⟨⟨cat, hcat⟩, hvalid⟩
        · exact Or.inl hempty
        · refine Or.inr ⟨hvalid, ?_⟩
          rw [hcat]
          refine ⟨rfl, ?_, by simp⟩
          exact List.getLast?_concat [sp.title, cat]
      · rcases hv : verify_path_exists env c1 p0 with ⟨bv, c2⟩
        have hvs := verify_state env p0 hb.1
        rw [hv] at hvs
        cases bv with
        | true =>
          have h1 : find_short_path env c k (some sp) (some ep) timeout
              = (p0, c2, k1) := by
            simp only [find_short_path, hbfs]
            simp [hg, hp0, hv]
          rw [h1]
          obtain ⟨hne0, hhead, hlast, hlen⟩ := hb.2 p0 rfl
          refine Or.inr ⟨?_, hhead, hlast, hlen⟩
          have hst := verify_stable env hb.1 p0 (by rw [hv])
          rw [hv] at hst
          exact hst
        | false =>
          have h1 : find_short_path env c k (some sp) (some ep) timeout
              = ((categoryFallback env c2 sp.title ep.title).1,
                 (categoryFallback env c2 sp.title ep.title).2, k1) := by
            simp only [find_short_path, hbfs]
            simp [hg, hp0, hv]
          rw [h1]
          obtain ⟨hcfc, hforms⟩ := categoryFallback_spec env sp.title ep.title hvs.1
          rcases hforms with hempty | ⟨⟨cat, hcat⟩, hvalid⟩
          · exact Or.inl hempty
          · refine Or.inr ⟨hvalid, ?_⟩
            rw [hcat]
            refine ⟨rfl, ?_, by simp⟩
            exact List.getLast?_concat [sp.title, cat]
    | none =>
      have h1 : find_short_path env c k (some sp) (some ep) timeout
          = ((categoryFallback env c1 sp.title ep.title).1,
             (categoryFallback env c1 sp.title ep.title).2, k1) := by
        simp only [find_short_path, hbfs]
        simp [hg]
      rw [h1]
      obtain ⟨hcfc, hforms⟩ := categoryFallback_spec env sp.title ep.title hb.1
      rcases hforms with hempty | ⟨⟨cat, hcat⟩, hvalid⟩
      · exact Or.inl hempty
      · refine Or.inr ⟨hvalid, ?_⟩
        rw [hcat]
        refine ⟨rfl, ?_, by simp⟩
        exact List.getLast?_concat [sp.title, cat]

/-- C1: starting from a coherent cache, every nonempty path the orchestrator
returns passes the validator in the state in which it is returned, whichever
strategy produced it: the BFS result and the direct shortcut are re-verified
before being returned, and the category fallback only returns paths the
validator accepted. -/
theorem C1_returned_paths_valid (env : Env) (c : Cache) (k : Nat)
    (sp ep : WikiPage) (timeout : Nat) (hc : Coherent env c)
    (hne : (find_short_path env c k (some sp) (some ep) timeout).1 ≠ []) :
    (verify_path_exists env
      (find_short_path env c k (some sp) (some ep) timeout).2.1
      (find_short_path env c k (some sp) (some ep) timeout).1).1 = true := by
  rcases find_short_path_main env k sp ep timeout hc with h | h
  · exact absurd h hne
  · exact h.1

/-- C1 witness: the concrete one-hop run from A to B validates in the
returned state. -/
theorem C1_returned_paths_valid_witness :
    Coherent testEnv cache0 ∧
    (find_short_path testEnv cache0 0 (some pageA) (some pageB) 15).1 ≠ [] ∧
    (verify_path_exists testEnv
      (find_short_path testEnv cache0 0 (some pageA) (some pageB) 15).2.1
      (find_short_path testEnv cache0 0 (some pageA) (some pageB) 15).1).1
      = true :=
  ⟨coherent_cache0 testEnv, by decide,
   C1_returned_paths_valid testEnv cache0 0 pageA pageB 15
     (coherent_cache0 testEnv) (by decide)⟩

/-- C10: starting from a coherent cache, every nonempty returned path begins
with the start topic, ends with the end topic, and has at most 6 elements:
BFS paths are capped by the depth bound 6 because nodes at the bound are not
extended, and shortcut and fallback paths have at most 3 elements. -/
theorem C10_path_shape (env : Env) (c : Cache) (k : Nat) (sp ep : WikiPage)
    (timeout : Nat) (hc : Coherent env c)
    (hne : (find_short_path env c k (some sp) (some ep) timeout).1 ≠ []) :
    (find_short_path env c k (some sp) (some ep) timeout).1.head?
      = some sp.title ∧
    (find_short_path env c k (some sp) (some ep) timeout).1.getLast?
      = some ep.title ∧
    (find_short_path env c k (some sp) (some ep) timeout).1.length ≤ 6 := by
  rcases find_short_path_main env k sp ep timeout hc with h | h
  · exact absurd h hne
  · exact ⟨h.2.1, h.2.2.1, h.2.2.2⟩

/-- C10 witness: the concrete two-hop BFS run from A to C. -/
theorem C10_path_shape_witness :
    Coherent testEnv cache0 ∧
    (find_short_path testEnv cache0 0 (some pageA) (some pageC) 15).1 ≠ [] ∧
    (find_short_path testEnv cache0 0 (some pageA) (some pageC) 15).1.head?
      = some pageA.title :=
  ⟨coherent_cache0 testEnv, by decide,
   (C10_path_shape testEnv cache0 0 pageA pageC 15
     (coherent_cache0 testEnv) (by decide)).1⟩
